import Mathlib

/-!
Verification of the natural-language specification of `tts_app.py`
(a small Azure text-to-speech front-end) against a shallow embedding of
its code in Lean.

Python strings are modelled as `List Char`, bytes as `List Nat`,
Python floats as exact rationals (`ℚ`), and the file system as an
association list from file names to byte contents.  The standard-library
routine `textwrap.wrap` (invoked by `split_text_into_chunks` with all
options at their defaults) is embedded following the CPython source:
`_munge_whitespace` (tab expansion and whitespace replacement), the
`wordsep_re` chunk splitter (restricted to the ASCII fragment of the
character classes `\w` and `[^\d\W]`), `_handle_long_word`, and
`_wrap_chunks` with `width > 0`, `break_long_words = True`,
`break_on_hyphens = True`, `drop_whitespace = True`, empty indents and
`max_lines = None`.
-/

/-! ## Character classes (CPython `textwrap` / `re` ASCII fragment) -/

/-- The six recognized whitespace characters, `textwrap._whitespace`:
tab, newline, vertical tab, form feed, carriage return, space. -/
def isPyWs (c : Char) : Bool :=
  c = '\t' || c = '\n' || c = Char.ofNat 11 || c = Char.ofNat 12 || c = '\r' || c = ' '

/-- Regex class `\w` (word character), ASCII fragment: alphanumeric or underscore. -/
def isWordChar (c : Char) : Bool :=
  c.isAlphanum || c = '_'

/-- Regex class `[^\d\W]` (`letter` in `textwrap`), ASCII fragment:
a word character that is not a digit. -/
def isLetterChar (c : Char) : Bool :=
  isWordChar c && !c.isDigit

/-- Regex class `[\w!"\'&.,?]` (`word_punct` in `textwrap`), ASCII fragment. -/
def isWordPunct (c : Char) : Bool :=
  isWordChar c || c = '!' || c = '"' || c = '\'' || c = '&' || c = '.' || c = ',' || c = '?'

/-! ## Python string primitives used by the program -/

/-- Python `str.startswith`: `startswith p s` is true when `p` is an initial
segment of `s`. -/
def startswith : List Char → List Char → Bool
  | [], _ => true
  | _ :: _, [] => false
  | p :: ps, c :: cs => p = c && startswith ps cs

/-- Python `needle in haystack` on strings: substring containment. -/
def containsStr (needle : List Char) : List Char → Bool
  | [] => startswith needle []
  | c :: rest => startswith needle (c :: rest) || containsStr needle rest

/-! ## Cost estimator (`tts_app.py`, lines 33–35 and 62–68) -/

/-- `STANDARD_VOICE_COST_PER_CHARACTER = 0.000004` ($4 per 1 million characters). -/
def STANDARD_VOICE_COST_PER_CHARACTER : ℚ := 0.000004

/-- `NEURAL_VOICE_COST_PER_CHARACTER = 0.000016` ($16 per 1 million characters). -/
def NEURAL_VOICE_COST_PER_CHARACTER : ℚ := 0.000016

/-- `estimate_conversion_cost(text, voice_type)`:
`total_characters = len(text)`; the neural rate is used when the literal
substring `"Neural"` occurs in `voice_type` (Python `"Neural" in voice_type`),
the standard rate otherwise; the function returns `(cost, total_characters)`
in that order (`return cost, total_characters`). -/
def estimate_conversion_cost (text voice_type : List Char) : ℚ × ℕ :=
  let total_characters := text.length
  let cost : ℚ :=
    if containsStr "Neural".data voice_type then
      (total_characters : ℚ) * NEURAL_VOICE_COST_PER_CHARACTER
    else
      (total_characters : ℚ) * STANDARD_VOICE_COST_PER_CHARACTER
  (cost, total_characters)

/-! ## Text chunker: embedding of CPython `textwrap.wrap` (default options),
as invoked by `split_text_into_chunks` (`tts_app.py`, lines 57–59). -/

/-- Python `str.expandtabs(8)`: a tab becomes spaces padding to the next
multiple of 8; `\n` and `\r` reset the column counter. -/
def expandtabsAux : List Char → Nat → List Char
  | [], _ => []
  | c :: rest, col =>
    if c = '\t' then
      let pad := 8 - col % 8
      List.replicate pad ' ' ++ expandtabsAux rest (col + pad)
    else if c = '\n' || c = '\r' then
      c :: expandtabsAux rest 0
    else
      c :: expandtabsAux rest (col + 1)

/-- Python `str.expandtabs(8)` from column 0. -/
def expandtabs (s : List Char) : List Char :=
  expandtabsAux s 0

/-- `TextWrapper._munge_whitespace` with `expand_tabs = True`,
`replace_whitespace = True`: expand tabs, then translate each of the six
recognized whitespace characters to a space. -/
def munge_whitespace (text : List Char) : List Char :=
  (expandtabs text).map (fun c => if isPyWs c then ' ' else c)

/-- Maximal prefix run satisfying `p`, with the remainder. -/
def takeRun (p : Char → Bool) : List Char → List Char × List Char
  | [] => ([], [])
  | c :: cs =>
    if p c then
      let r := takeRun p cs
      (c :: r.1, r.2)
    else ([], c :: cs)

/-- Lookbehind of the hyphenated-word rule of `wordsep_re`,
`(?<=[^\d\W]{2}-)|(?<=[^\d\W]-[^\d\W]-)`, evaluated just before the
candidate hyphen; `accRev` lists the preceding characters nearest first. -/
def hyphLookbehind : List Char → Bool
  | a :: b :: rest =>
    (isLetterChar a && isLetterChar b) ||
      (isLetterChar a && b = '-' &&
        (match rest with
         | c :: _ => isLetterChar c
         | [] => false))
  | _ => false

/-- Lookahead of the hyphenated-word rule, `(?=[^\d\W]-?[^\d\W])`,
evaluated just after the candidate hyphen. -/
def hyphLookahead : List Char → Bool
  | x :: y :: rest =>
    isLetterChar x &&
      (isLetterChar y ||
        (y = '-' &&
          (match rest with
           | z :: _ => isLetterChar z
           | [] => false)))
  | _ => false

/-- Lookahead `(?=-{2,}\w)`: a maximal run of at least two hyphens followed
by a word character. -/
def emDashAhead (s : List Char) : Bool :=
  let r := takeRun (fun d => d = '-') s
  match r.1, r.2 with
  | _ :: _ :: _, w :: _ => isWordChar w
  | _, _ => false

/-- Lookbehind `(?<=[\w!"\'&.,?])`: the previous character (the head of the
reversed prefix) is a word-punctuation character. -/
def lastIsWordPunct : List Char → Bool
  | a :: _ => isWordPunct a
  | [] => false

/-- The em-dash-between-words alternative of `wordsep_re`,
`(?<=[\w!"\'&.,?])-{2,}(?=\w)`, tested at the start of `s`. -/
def emDashHere (accRev s : List Char) : Bool :=
  lastIsWordPunct accRev && emDashAhead s

/-- The word alternative of `wordsep_re`: `[^ \t\n\x0b\x0c\r]+?` extended
lazily until the hyphenated-word break fires (consuming the hyphen), the
next character is whitespace or the text ends, or an em-dash run follows a
word-punctuation character.  `chunkRev` is the word consumed so far
(reversed), `accRev` all characters before the current position (reversed);
returns the chunk, the updated `accRev` and the remaining text. -/
def wordScan (chunkRev accRev : List Char) : List Char → List Char × List Char × List Char
  | [] => (chunkRev.reverse, accRev, [])
  | r :: rest =>
    if r = '-' && hyphLookbehind accRev && hyphLookahead rest then
      (('-' :: chunkRev).reverse, '-' :: accRev, rest)
    else if isPyWs r then
      (chunkRev.reverse, accRev, r :: rest)
    else if lastIsWordPunct accRev && emDashAhead (r :: rest) then
      (chunkRev.reverse, accRev, r :: rest)
    else
      wordScan (r :: chunkRev) (r :: accRev) rest

/-- `TextWrapper._split` with `break_on_hyphens = True`: repeated matching
of `wordsep_re`, which at every position yields either a whitespace run, an
em-dash run, or a word chunk (all nonempty, so the empty-chunk filter of
`_split` is a no-op).  Every step consumes at least one character, so fuel
equal to the text length suffices. -/
def splitLoop : Nat → List Char → List Char → List (List Char)
  | 0, _, _ => []
  | fuel + 1, accRev, s =>
    match s with
    | [] => []
    | c :: rest =>
      if isPyWs c then
        let r := takeRun isPyWs (c :: rest)
        r.1 :: splitLoop fuel (r.1.reverse ++ accRev) r.2
      else if emDashHere accRev (c :: rest) then
        let r := takeRun (fun d => d = '-') (c :: rest)
        r.1 :: splitLoop fuel (r.1.reverse ++ accRev) r.2
      else
        let w := wordScan [c] (c :: accRev) rest
        w.1 :: splitLoop fuel w.2.1 w.2.2

/-- `TextWrapper._split` on a whole text. -/
def textwrapSplit (text : List Char) : List (List Char) :=
  splitLoop text.length [] text

/-- The inner greedy loop of `_wrap_chunks`: move whole chunks onto the
current line while the accumulated length stays within `width`. -/
def greedyTake (width : Nat) : Nat → List (List Char) → List (List Char) →
    List (List Char) × Nat × List (List Char)
  | curLen, cur, [] => (cur, curLen, [])
  | curLen, cur, c :: rest =>
    if curLen + c.length ≤ width then
      greedyTake width (curLen + c.length) (cur ++ [c]) rest
    else
      (cur, curLen, c :: rest)

/-- Python `chunk.rfind('-', 0, stop)` restricted to a prefix already taken:
index of the last hyphen, if any. -/
def rfindHyphen : List Char → Option Nat
  | [] => none
  | c :: rest =>
    match rfindHyphen rest with
    | some i => some (i + 1)
    | none => if c = '-' then some 0 else none

/-- `TextWrapper._handle_long_word` with `break_long_words = True` and
`break_on_hyphens = True`: split the head chunk at the available space, or
just after the last hyphen fitting in it when preceded by a non-hyphen.
Returns the part put on the current line and the remainder. -/
def handle_long_word (chunk : List Char) (curLen width : Nat) : List Char × List Char :=
  let space_left := if width < 1 then 1 else width - curLen
  let e :=
    if space_left < chunk.length then
      match rfindHyphen (chunk.take space_left) with
      | some hy =>
        if hy != 0 && (chunk.take hy).any (fun c => c != '-') then hy + 1 else space_left
      | none => space_left
    else space_left
  (chunk.take e, chunk.drop e)

/-- Python `chunk.strip() == ''` (ASCII model): every character is
whitespace; true for the empty chunk. -/
def wsOnly (l : List Char) : Bool :=
  l.all isPyWs

/-- One iteration of the outer `while chunks` loop of `_wrap_chunks`
(`drop_whitespace = True`, empty indents, `max_lines = None`): drop a
leading whitespace chunk unless no line was produced yet, fill the line
greedily, break a too-long head chunk, drop a trailing whitespace chunk,
and emit the line if nonempty.  Returns the emitted line (if any) and the
remaining chunks. -/
def wrapStep (width : Nat) (hasLines : Bool) (chunks : List (List Char)) :
    Option (List Char) × List (List Char) :=
  match chunks with
  | [] => (none, [])
  | c0 :: rest0 =>
    let cs := if hasLines && wsOnly c0 then rest0 else c0 :: rest0
    let g := greedyTake width 0 [] cs
    let cur := g.1
    let curLen := g.2.1
    let p :=
      match g.2.2 with
      | [] => (cur, ([] : List (List Char)))
      | c :: rest =>
        if width < c.length then
          let hlw := handle_long_word c curLen width
          (cur ++ [hlw.1], hlw.2 :: rest)
        else
          (cur, c :: rest)
    let cur3 :=
      match p.1.getLast? with
      | some l => if wsOnly l then p.1.dropLast else p.1
      | none => p.1
    (if cur3 = [] then none else some cur3.flatten, p.2)

/-- Termination measure for the outer loop of `_wrap_chunks`: total number
of characters plus number of chunks.  Every `wrapStep` on a nonempty chunk
list strictly decreases it. -/
def muChunks (chunks : List (List Char)) : Nat :=
  (chunks.map List.length).sum + chunks.length

/-- The outer `while chunks` loop of `_wrap_chunks`, driven by fuel;
`muChunks chunks + 1` units are enough (see `wrapLoop_fuel_sufficient`). -/
def wrapLoop (width : Nat) : Nat → Bool → List (List Char) → List (List Char)
  | 0, _, _ => []
  | _ + 1, _, [] => []
  | fuel + 1, hasLines, c :: rest =>
    let s := wrapStep width hasLines (c :: rest)
    match s.1 with
    | some l => l :: wrapLoop width fuel true s.2
    | none => wrapLoop width fuel hasLines s.2

/-- `TextWrapper._wrap_chunks` on a chunk list (for positive width). -/
def textwrapWrapChunks (width : Nat) (chunks : List (List Char)) : List (List Char) :=
  wrapLoop width (muChunks chunks + 1) false chunks

/-- `textwrap.wrap(text, width)` with all other options at their defaults;
`none` models the `ValueError` raised for `width <= 0`. -/
def textwrapWrap (text : List Char) (width : Nat) : Option (List (List Char)) :=
  if width = 0 then none
  else some (textwrapWrapChunks width (textwrapSplit (munge_whitespace text)))

/-- `split_text_into_chunks(text, max_chunk_size)` = `textwrap.wrap(text, max_chunk_size)`
(`tts_app.py`, lines 57–59; the call sites use the default `max_chunk_size = 5000`). -/
def split_text_into_chunks (text : List Char) (max_chunk_size : Nat) : Option (List (List Char)) :=
  textwrapWrap text max_chunk_size

/-! ## Voice catalog partitioning (`tts_app.py`, lines 45–55) -/

/-- A voice descriptor from the remote catalog; only the fields the program
reads. -/
structure Voice where
  short_name : List Char
  local_name : List Char
  locale : List Char
deriving DecidableEq

/-- `organize_voices_by_language(voices)`: the dict
`{"English": [...], "Spanish": [...]}` built by appending each voice whose
locale starts with `"en"` to the English bucket and otherwise each voice
whose locale starts with `"es"` to the Spanish bucket; all other voices are
skipped.  The dict is modelled as an association list in insertion order of
its two keys. -/
def organize_voices_by_language (voices : List Voice) : List (List Char × List Voice) :=
  let p :=
    voices.foldl
      (fun (acc : List Voice × List Voice) v =>
        if startswith "en".data v.locale then (acc.1 ++ [v], acc.2)
        else if startswith "es".data v.locale then (acc.1, acc.2 ++ [v])
        else acc)
      ([], [])
  [("English".data, p.1), ("Spanish".data, p.2)]

/-! ## File system and synthesis model (`tts_app.py`, lines 71–127, 129–138) -/

/-- Lookup in an association list keyed by strings. -/
def assocLookup {α : Type} (key : List Char) : List (List Char × α) → Option α
  | [] => none
  | e :: rest => if e.1 = key then some e.2 else assocLookup key rest

/-- The local working directory: file name to byte content. -/
abbrev FS := List (List Char × List Nat)

/-- Read a file (`open(name, "rb").read()`); `none` when absent. -/
def readFS (fs : FS) (name : List Char) : Option (List Nat) :=
  assocLookup name fs

/-- Write a file, replacing any previous content (`open(name, "wb")`). -/
def writeFS : FS → List Char → List Nat → FS
  | [], name, content => [(name, content)]
  | e :: rest, name, content =>
    if e.1 = name then (name, content) :: rest else e :: writeFS rest name content

/-- Terminal result of one remote synthesis call
(`synthesizer.speak_text_async(chunk).get()`): completed with audio bytes
written to the configured file, a provider cancellation (the reason-is-error
flag and detail string are only displayed), or any exception raised inside
the `try` block. -/
inductive SynthOutcome where
  | completed (audio : List Nat)
  | canceled (isError : Bool) (error_details : List Char)
  | raised (message : List Char)
deriving DecidableEq

/-- The remote provider: voice name, chunk number and chunk text determine
the outcome of the synthesis call. -/
abbrev Provider := List Char → Nat → List Char → SynthOutcome

/-- Decimal digit to character. -/
def digitChar : Nat → Char
  | 0 => '0'
  | 1 => '1'
  | 2 => '2'
  | 3 => '3'
  | 4 => '4'
  | 5 => '5'
  | 6 => '6'
  | 7 => '7'
  | 8 => '8'
  | 9 => '9'
  | _ => '*'

/-- Decimal digits of `n`, most significant first, with explicit fuel
(`fuel ≥ n` suffices); empty for `n = 0`. -/
def digitsAux : Nat → Nat → List Char
  | 0, _ => []
  | fuel + 1, n => if n = 0 then [] else digitsAux fuel (n / 10) ++ [digitChar (n % 10)]

/-- Python `str(n)` for a natural number. -/
def natToDecimal (n : Nat) : List Char :=
  if n = 0 then ['0'] else digitsAux n n

/-- The per-chunk artifact name, Python `f"chunk_{chunk_number}.mp3"`. -/
def chunkFilename (chunk_number : Nat) : List Char :=
  "chunk_".data ++ natToDecimal chunk_number ++ ".mp3".data

/-- `synthesize_chunk(text_chunk, voice, chunk_number)`: on completion the
audio is written to `chunk_{chunk_number}.mp3` and that name is returned;
on cancellation or on any raised exception error messages are displayed and
the function returns `None` (no audio file is recorded for the chunk). -/
def synthesize_chunk (provider : Provider) (text_chunk voice : List Char)
    (chunk_number : Nat) (fs : FS) : Option (List Char) × FS :=
  let output_filename := chunkFilename chunk_number
  match provider voice chunk_number text_chunk with
  | .completed audio => (some output_filename, writeFS fs output_filename audio)
  | .canceled _ _ => (none, fs)
  | .raised _ => (none, fs)

/-- The `for i, chunk in enumerate(chunks)` loop of
`text_to_speech_in_chunks`: synthesize chunk `i` as chunk number `i + 1`,
collecting the returned file names of the successful chunks in order. -/
def synthLoop (provider : Provider) (voice : List Char) :
    Nat → List (List Char) → FS → List (List Char) × FS
  | _, [], fs => ([], fs)
  | i, chunk :: rest, fs =>
    let r := synthesize_chunk provider chunk voice (i + 1) fs
    let t := synthLoop provider voice (i + 1) rest r.2
    match r.1 with
    | some f => (f :: t.1, t.2)
    | none => t

/-- The assembly step: `open(output, "wb")` truncates the output file, then
the content of each collected per-chunk file is appended in order.  Reads of
the collected files always succeed in reachable states (each was written by
a successful `synthesize_chunk`); a missing file defaults to no bytes. -/
def concatFiles (fs : FS) (output_filename : List Char) (audio_files : List (List Char)) : FS :=
  audio_files.foldl
    (fun f af => writeFS f output_filename ((readFS f output_filename).getD [] ++ (readFS f af).getD []))
    (writeFS fs output_filename [])

/-- `text_to_speech_in_chunks(text, voice, voice_type, output_filename)`:
split the text with the default maximum chunk size 5000, synthesize each
chunk, and — only when at least one chunk succeeded — concatenate the
per-chunk files into `output_filename` (`if audio_files:`), offering it for
download.  `voice_type` is used only for the displayed cost estimate. -/
def text_to_speech_in_chunks (provider : Provider) (text voice voice_type : List Char)
    (output_filename : List Char) (fs : FS) : FS :=
  let chunks := (split_text_into_chunks text 5000).getD []
  let _displayed_estimate := estimate_conversion_cost text voice_type
  let r := synthLoop provider voice 0 chunks fs
  if r.1 = [] then r.2 else concatFiles r.2 output_filename r.1

/-- `preview_voice(voice, language)`: build the fixed greeting for the
language, then invoke
`text_to_speech_in_chunks(preview_text, voice, output_filename)` — a
three-argument call, so the local `output_filename = "preview.mp3"` is bound
to the third positional parameter `voice_type`, and the orchestrator's
`output_filename` parameter keeps its default `"output.mp3"`.  Returns the
resulting file system and the name passed to `st.audio` for playback. -/
def preview_voice (provider : Provider) (voice language : List Char) (fs : FS) :
    FS × List Char :=
  let preview_text :=
    if language = "English".data then
      "Hello! My name is ".data ++ voice ++ " and I will be your voice.".data
    else
      "¡Hola! Me llamo ".data ++ voice ++ " y seré tu voz.".data
  let output_filename := "preview.mp3".data
  (text_to_speech_in_chunks provider preview_text voice output_filename "output.mp3".data fs,
   output_filename)

/-! ## Configuration loading and session start (`tts_app.py`, lines 13–23, 161–166) -/

/-- The `secrets.toml` store: a table of tables of string values. -/
abbrev TomlTable := List (List Char × List (List Char × List Char))

/-- Outcome of the module-level secret loading: both keys found, the file
absent (`FileNotFoundError`), or an access failing (`KeyError`). -/
inductive ConfigOutcome where
  | ok (api_key region : List Char)
  | fileNotFound
  | keyError
deriving DecidableEq

/-- Lines 14–17: `toml.load('secrets.toml')` followed by
`secrets['speech_service']['api_key']` and
`secrets['speech_service']['region']`. -/
def loadSecrets (store : Option TomlTable) : ConfigOutcome :=
  match store with
  | none => .fileNotFound
  | some secrets =>
    match assocLookup "speech_service".data secrets with
    | none => .keyError
    | some svc =>
      match assocLookup "api_key".data svc, assocLookup "region".data svc with
      | some k, some r => .ok k r
      | _, _ => .keyError

/-- Observable session events: the single load attempt, the two error
messages with `st.stop()`, and the remote voice-catalog call that `main`
makes first. -/
inductive SessionEvent where
  | loadSecretsAttempt
  | configFileErrorShown
  | configKeysErrorShown
  | sessionStopped
  | remoteVoiceListCall
deriving DecidableEq

/-- The session from module load: one attempt to read `secrets.toml`; on
`FileNotFoundError` or `KeyError` an error is shown and `st.stop()` ends the
session; otherwise `main()` runs, starting with the remote
`get_available_voices` call, followed by the rest of the script
(`mainRest`). -/
def runSession (store : Option TomlTable) (mainRest : List SessionEvent) : List SessionEvent :=
  SessionEvent.loadSecretsAttempt ::
    (match loadSecrets store with
     | .fileNotFound => [.configFileErrorShown, .sessionStopped]
     | .keyError => [.configKeysErrorShown, .sessionStopped]
     | .ok _ _ => SessionEvent.remoteVoiceListCall :: mainRest)

/-! ## Spec-side notions used to state the claims -/

/-- Claim wording: join a chunk sequence with single spaces at the break
points. -/
def joinWithSpaces : List (List Char) → List Char
  | [] => []
  | [l] => l
  | l :: ls => l ++ ' ' :: joinWithSpaces ls

/-- Drop the first of two adjacent whitespace characters, repeatedly. -/
def squeezeSpaces : List Char → List Char
  | [] => []
  | [c] => [c]
  | a :: b :: rest =>
    if isPyWs a && isPyWs b then squeezeSpaces (b :: rest)
    else a :: squeezeSpaces (b :: rest)

/-- Claim C7's normalization of the source text: collapse each maximal
whitespace run to a single space and trim leading and trailing whitespace. -/
def specNormalizeWs (s : List Char) : List Char :=
  let collapsed := squeezeSpaces (s.map (fun c => if isPyWs c then ' ' else c))
  ((collapsed.dropWhile isPyWs).reverse.dropWhile isPyWs).reverse

/-- The non-whitespace content of a string, in order. -/
def stripWs (s : List Char) : List Char :=
  s.filter (fun c => !isPyWs c)

/-! ## Concrete fixtures used by witnesses and counterexamples -/

/-- A provider that completes every chunk, with the chunk number as the
single audio byte. -/
def providerOK : Provider := fun _ n _ => SynthOutcome.completed [n]

/-- A provider that cancels chunk 2 and completes every other chunk. -/
def providerDrop2 : Provider :=
  fun _ n _ =>
    if n = 2 then SynthOutcome.canceled true "connection failure".data
    else SynthOutcome.completed [n]

/-- Catalog fixture: a United States English voice. -/
def vEnUS : Voice := ⟨"en-US-JennyNeural".data, "Jenny".data, "en-US".data⟩

/-- Catalog fixture: a United Kingdom English voice. -/
def vEnGB : Voice := ⟨"en-GB-LibbyNeural".data, "Libby".data, "en-GB".data⟩

/-- Catalog fixture: a Spain Spanish voice. -/
def vEsES : Voice := ⟨"es-ES-ElviraNeural".data, "Elvira".data, "es-ES".data⟩

/-- Catalog fixture: a French voice, outside the allow-list. -/
def vFrFR : Voice := ⟨"fr-FR-DeniseNeural".data, "Denise".data, "fr-FR".data⟩

/-! ## Claim C1 -/

/-- Unfolding of `estimate_conversion_cost` as a single pair expression. -/
theorem estimate_eval (t v : List Char) :
    estimate_conversion_cost t v =
      (if containsStr "Neural".data v then
          (t.length : ℚ) * NEURAL_VOICE_COST_PER_CHARACTER
        else (t.length : ℚ) * STANDARD_VOICE_COST_PER_CHARACTER,
       t.length) := rfl

/-- Claim C1 is false as stated: `estimate_conversion_cost` returns the pair
`(estimated_cost, total_characters)`, not `(total_characters, estimated_cost)`;
on the claim's own example of one million characters with voice type
`"Neural"` the result is not `(1000000, 16.0)`. -/
theorem C1_counterexample :
    estimate_conversion_cost (List.replicate 1000000 'a') "Neural".data ≠
      ((1000000 : ℚ), (16 : ℕ)) := by
  intro h
  have h2 : (List.replicate 1000000 'a').length = (16 : ℕ) := congrArg Prod.snd h
  rw [List.length_replicate] at h2
  exact absurd h2 (by norm_num)

/-- Claim C1, amended: `estimate_conversion_cost(t, v)` returns the pair
`(estimated_cost, total_characters)` — in that order — with
`estimated_cost = total_characters × rate` (0.000016 when the voice-type
label contains `"Neural"`, 0.000004 otherwise); on one million characters it
returns `(16.0, 1000000)` for `"Neural"` and `(4.0, 1000000)` for
`"Standard"`. -/
theorem C1_amended_cost_pair :
    (∀ t v : List Char,
      estimate_conversion_cost t v =
        (if containsStr "Neural".data v then
            (t.length : ℚ) * NEURAL_VOICE_COST_PER_CHARACTER
          else (t.length : ℚ) * STANDARD_VOICE_COST_PER_CHARACTER,
         t.length)) ∧
    estimate_conversion_cost (List.replicate 1000000 'a') "Neural".data = (16, 1000000) ∧
    estimate_conversion_cost (List.replicate 1000000 'a') "Standard".data = (4, 1000000) := by
  refine ⟨fun t v => rfl, ?_, ?_⟩
  · have hn : containsStr "Neural".data "Neural".data = true := by decide
    rw [estimate_eval, if_pos hn, List.length_replicate]
    rw [Prod.mk.injEq]
    exact ⟨by norm_num [NEURAL_VOICE_COST_PER_CHARACTER], rfl⟩
  · have hn : ¬ (containsStr "Neural".data "Standard".data = true) := by decide
    rw [estimate_eval, if_neg hn, List.length_replicate]
    rw [Prod.mk.injEq]
    exact ⟨by norm_num [STANDARD_VOICE_COST_PER_CHARACTER], rfl⟩

/-! ## Claim C2 -/

/-- Claim C2 is false as stated: the neural test is the case-sensitive
Python containment `"Neural" in voice_type`, so the label `"neural"` —
which contains `"neural"` case-insensitively — is *not* classified as
neural: the standard rate is applied to it. -/
theorem C2_counterexample :
    containsStr "neural".data "neural".data = true ∧
    containsStr "Neural".data "neural".data = false ∧
    (estimate_conversion_cost ['a'] "neural".data).1 ≠
      (1 : ℚ) * NEURAL_VOICE_COST_PER_CHARACTER := by
  refine ⟨by decide, by decide, ?_⟩
  have hn : containsStr "Neural".data "neural".data = false := by decide
  simp [estimate_conversion_cost, hn, STANDARD_VOICE_COST_PER_CHARACTER,
    NEURAL_VOICE_COST_PER_CHARACTER]
  norm_num

/-- Claim C2, amended: the classification is a case-sensitive substring
match against the literal `"Neural"`: the label `"Neural"` is classified as
neural, while `"neural"` and `"NEURAL"` are not. -/
theorem C2_amended_case_sensitive :
    (∀ t v : List Char,
      (estimate_conversion_cost t v).1 =
        if containsStr "Neural".data v then
          (t.length : ℚ) * NEURAL_VOICE_COST_PER_CHARACTER
        else (t.length : ℚ) * STANDARD_VOICE_COST_PER_CHARACTER) ∧
    containsStr "Neural".data "Neural".data = true ∧
    containsStr "Neural".data "neural".data = false ∧
    containsStr "Neural".data "NEURAL".data = false := by
  exact ⟨fun t v => rfl, by decide, by decide, by decide⟩

/-! ## Claim C5 -/

/-- The voice-partitioning fold, rephrased: the English bucket collects the
voices whose locale starts with `"en"`, the Spanish bucket those whose
locale does not start with `"en"` but starts with `"es"`. -/
theorem organize_foldl_eq (voices : List Voice) (accE accS : List Voice) :
    voices.foldl
      (fun (acc : List Voice × List Voice) v =>
        if startswith "en".data v.locale then (acc.1 ++ [v], acc.2)
        else if startswith "es".data v.locale then (acc.1, acc.2 ++ [v])
        else acc)
      (accE, accS) =
    (accE ++ voices.filter (fun v => startswith "en".data v.locale),
     accS ++ voices.filter
        (fun v => !startswith "en".data v.locale && startswith "es".data v.locale)) := by
  induction voices generalizing accE accS with
  | nil => simp
  | cons v rest ih =>
    simp only [List.foldl_cons, List.filter_cons]
    by_cases h1 : startswith "en".data v.locale = true
    · simp [h1, ih]
    · by_cases h2 : startswith "es".data v.locale = true <;>
        simp [h1, h2, ih, Bool.not_eq_true]

/-- Claim C5 is false as stated: the grouped result has no
`"Spanish (Spain)"` bucket — on the claim's own voice list the keys are
`"English"` and `"Spanish"`, and `es-ES` is filed under `"Spanish"`. -/
theorem C5_counterexample :
    assocLookup "Spanish (Spain)".data
        (organize_voices_by_language [vEnUS, vEnGB, vEsES, vFrFR]) = none ∧
    organize_voices_by_language [vEnUS, vEnGB, vEsES, vFrFR] =
      [("English".data, [vEnUS, vEnGB]), ("Spanish".data, [vEsES])] := by
  exact ⟨by decide, by decide⟩

/-- Claim C5, amended: the partitioner groups every voice whose locale
starts with `"en"` under the key `"English"` and every remaining voice whose
locale starts with `"es"` under the key `"Spanish"` (not
`"Spanish (Spain)"`), silently omitting all other locales; on locales
`en-US`, `en-GB`, `es-ES`, `fr-FR` it returns `en-US`, `en-GB` under
`"English"` and `es-ES` under `"Spanish"`, and `fr-FR` is dropped. -/
theorem C5_amended_language_buckets (voices : List Voice) :
    organize_voices_by_language voices =
      [("English".data, voices.filter (fun v => startswith "en".data v.locale)),
       ("Spanish".data, voices.filter
          (fun v => !startswith "en".data v.locale && startswith "es".data v.locale))] ∧
    organize_voices_by_language [vEnUS, vEnGB, vEsES, vFrFR] =
      [("English".data, [vEnUS, vEnGB]), ("Spanish".data, [vEsES])] := by
  refine ⟨?_, by decide⟩
  simp [organize_voices_by_language, organize_foldl_eq]

/-! ## Claim C3 -/

/-- Claim C3 fails on the code, and the code contradicts its own intent
(code bug): `preview_voice` passes its local `output_filename = "preview.mp3"`
as the *third* positional argument of `text_to_speech_in_chunks`, which is
that function's `voice_type` parameter, so the synthesis writes the preview
audio to the default main conversion artifact `"output.mp3"`, while
`"preview.mp3"` — the very file the code then plays back with `st.audio` —
is never written.  Evaluated here on a provider that completes chunk `n`
with audio `[n]`: the greeting forms a single chunk, `"output.mp3"` receives
its audio, and `"preview.mp3"` stays absent. -/
theorem C3_preview_writes_main_output :
    (preview_voice providerOK "Alice".data "English".data []).2 = "preview.mp3".data ∧
    readFS (preview_voice providerOK "Alice".data "English".data []).1 "preview.mp3".data
      = none ∧
    readFS (preview_voice providerOK "Alice".data "English".data []).1 "output.mp3".data
      = some [1] := by
  exact ⟨by decide, by decide, by decide⟩

/-! ## Claim C8 -/

/-- Claim C8 confirmed: with the store absent the session trace is exactly
the load attempt, the configuration-file error message and `st.stop()`; with
the store present but a required key missing it is the load attempt, the
missing-keys error message and `st.stop()`.  Both traces are terminal
(`st.stop()` last), contain no remote call, and contain the single load
attempt — no retry. -/
theorem C8_missing_config_stops_before_remote_calls (rest : List SessionEvent)
    (secrets : TomlTable) (hmiss : loadSecrets (some secrets) = .keyError) :
    runSession none rest =
      [.loadSecretsAttempt, .configFileErrorShown, .sessionStopped] ∧
    runSession (some secrets) rest =
      [.loadSecretsAttempt, .configKeysErrorShown, .sessionStopped] ∧
    SessionEvent.remoteVoiceListCall ∉ runSession none rest ∧
    SessionEvent.remoteVoiceListCall ∉ runSession (some secrets) rest ∧
    (runSession none rest).count .loadSecretsAttempt = 1 ∧
    (runSession (some secrets) rest).count .loadSecretsAttempt = 1 := by
  have h1 : runSession none rest =
      [.loadSecretsAttempt, .configFileErrorShown, .sessionStopped] := rfl
  have h2 : runSession (some secrets) rest =
      [.loadSecretsAttempt, .configKeysErrorShown, .sessionStopped] := by
    simp [runSession, hmiss]
  refine ⟨h1, h2, ?_, ?_, ?_, ?_⟩
  · rw [h1]; decide
  · rw [h2]; decide
  · rw [h1]; decide
  · rw [h2]; decide

/-- Witness for C8: a concrete store containing an empty `speech_service`
table (so the key accesses fail) and a session remainder that would perform
the remote voice-catalog call. -/
theorem C8_witness :
    runSession none [SessionEvent.remoteVoiceListCall] =
      [.loadSecretsAttempt, .configFileErrorShown, .sessionStopped] ∧
    runSession (some [("speech_service".data, [])]) [SessionEvent.remoteVoiceListCall] =
      [.loadSecretsAttempt, .configKeysErrorShown, .sessionStopped] :=
  ⟨(C8_missing_config_stops_before_remote_calls [SessionEvent.remoteVoiceListCall]
      [("speech_service".data, [])] (by decide)).1,
   (C8_missing_config_stops_before_remote_calls [SessionEvent.remoteVoiceListCall]
      [("speech_service".data, [])] (by decide)).2.1⟩

/-! ## Claim C10 -/

/-- Claim C10 confirmed: at its interface `synthesize_chunk` is total with
an `Option` result: it returns the per-chunk artifact name `chunk_{n}.mp3`
exactly when the provider reports synthesis completed, and `None` on a
provider cancellation or on any exception raised inside its `try` block
(the `except Exception` clause catches them all, so none propagates). -/
theorem C10_synthesize_chunk_total_option (provider : Provider)
    (text_chunk voice : List Char) (n : Nat) (fs : FS) :
    ((∃ audio, provider voice n text_chunk = .completed audio) →
        (synthesize_chunk provider text_chunk voice n fs).1 = some (chunkFilename n)) ∧
    ((∀ audio, provider voice n text_chunk ≠ .completed audio) →
        (synthesize_chunk provider text_chunk voice n fs).1 = none) := by
  constructor
  · rintro ⟨audio, h⟩
    simp [synthesize_chunk, h]
  · intro h
    cases ho : provider voice n text_chunk with
    | completed audio => exact absurd ho (h audio)
    | canceled e d => simp [synthesize_chunk, ho]
    | raised m => simp [synthesize_chunk, ho]

/-- Witness for C10: the chunk-2-cancelling provider yields the artifact
name for chunk 1 and `None` for chunk 2. -/
theorem C10_witness :
    (synthesize_chunk providerDrop2 "hello".data "v".data 1 []).1 = some (chunkFilename 1) ∧
    (synthesize_chunk providerDrop2 "hello".data "v".data 2 []).1 = none :=
  ⟨(C10_synthesize_chunk_total_option providerDrop2 "hello".data "v".data 1 []).1
      ⟨[1], rfl⟩,
   (C10_synthesize_chunk_total_option providerDrop2 "hello".data "v".data 2 []).2
      (fun _ h => SynthOutcome.noConfusion h)⟩

/-! ## File-system lemmas -/

/-- Reading a file just written yields the written content. -/
theorem readFS_writeFS_same (fs : FS) (name : List Char) (content : List Nat) :
    readFS (writeFS fs name content) name = some content := by
  induction fs with
  | nil => simp [writeFS, readFS, assocLookup]
  | cons e rest ih =>
    by_cases h : e.1 = name
    · simp [writeFS, readFS, assocLookup, h]
    · simpa [writeFS, readFS, assocLookup, h] using ih

/-- Writing one file leaves every other file unchanged. -/
theorem readFS_writeFS_ne (fs : FS) (name m : List Char) (content : List Nat)
    (h : name ≠ m) : readFS (writeFS fs m content) name = readFS fs name := by
  induction fs with
  | nil => simp [writeFS, readFS, assocLookup, Ne.symm h]
  | cons e rest ih =>
    by_cases he : e.1 = m
    · have hne : ¬ (m = name) := fun hmn => h hmn.symm
      simp [writeFS, readFS, assocLookup, he, hne, h]
    · by_cases hn : e.1 = name
      · simp [writeFS, readFS, assocLookup, he, hn, h]
      · simpa [writeFS, readFS, assocLookup, he, hn, h] using ih

/-- Writing the same file twice keeps only the second content. -/
theorem writeFS_writeFS (fs : FS) (name : List Char) (a b : List Nat) :
    writeFS (writeFS fs name a) name b = writeFS fs name b := by
  induction fs with
  | nil => simp [writeFS]
  | cons e rest ih =>
    by_cases h : e.1 = name
    · simp [writeFS, h]
    · simp [writeFS, h, ih]

/-! ## Injectivity of the per-chunk artifact names -/

/-- Numeric value of a decimal digit character (0 for other characters). -/
def digitVal (c : Char) : Nat :=
  if c = '1' then 1 else if c = '2' then 2 else if c = '3' then 3 else
  if c = '4' then 4 else if c = '5' then 5 else if c = '6' then 6 else
  if c = '7' then 7 else if c = '8' then 8 else if c = '9' then 9 else 0

/-- Parse a decimal digit string back to a number. -/
def parseDec (l : List Char) : Nat :=
  l.foldl (fun acc c => acc * 10 + digitVal c) 0

/-- Appending a digit multiplies the parsed value by ten and adds the digit. -/
theorem parseDec_append (l : List Char) (c : Char) :
    parseDec (l ++ [c]) = parseDec l * 10 + digitVal c := by
  simp [parseDec, List.foldl_append]

/-- `digitVal` inverts `digitChar` on digits. -/
theorem digitVal_digitChar : ∀ d, d < 10 → digitVal (digitChar d) = d := by decide

/-- `parseDec` inverts `digitsAux` whenever the fuel covers the number. -/
theorem parseDec_digitsAux : ∀ fuel n, n ≤ fuel → parseDec (digitsAux fuel n) = n := by
  intro fuel
  induction fuel with
  | zero =>
    intro n hn
    have h0 : n = 0 := Nat.le_zero.mp hn
    subst h0
    rfl
  | succ f ih =>
    intro n hn
    by_cases h0 : n = 0
    · subst h0
      simp [digitsAux, parseDec]
    · have hdiv : n / 10 < n := Nat.div_lt_self (Nat.pos_of_ne_zero h0) (by norm_num)
      rw [digitsAux, if_neg h0, parseDec_append, ih (n / 10) (by omega),
        digitVal_digitChar (n % 10) (Nat.mod_lt n (by norm_num))]
      omega

/-- `parseDec` inverts `natToDecimal`. -/
theorem parseDec_natToDecimal (n : Nat) : parseDec (natToDecimal n) = n := by
  by_cases h : n = 0
  · subst h
    decide
  · rw [natToDecimal, if_neg h]
    exact parseDec_digitsAux n n le_rfl

/-- Python decimal rendering of naturals is injective. -/
theorem natToDecimal_inj (a b : Nat) (h : natToDecimal a = natToDecimal b) : a = b := by
  rw [← parseDec_natToDecimal a, ← parseDec_natToDecimal b, h]

/-- Distinct chunk numbers give distinct artifact names. -/
theorem chunkFilename_inj (a b : Nat) (h : chunkFilename a = chunkFilename b) : a = b := by
  unfold chunkFilename at h
  have h1 : "chunk_".data ++ natToDecimal a = "chunk_".data ++ natToDecimal b :=
    List.append_cancel_right h
  exact natToDecimal_inj a b (List.append_cancel_left h1)

/-! ## Synthesis-loop characterization -/

/-- The audio bytes of exactly the successfully synthesized chunks, in chunk
order, when the `k`-th listed chunk is synthesized as chunk number
`i + k + 1` (claim C4's notion of the expected output content). -/
def successAudios (provider : Provider) (voice : List Char) :
    Nat → List (List Char) → List (List Nat)
  | _, [] => []
  | i, chunk :: rest =>
    match provider voice (i + 1) chunk with
    | .completed audio => audio :: successAudios provider voice (i + 1) rest
    | _ => successAudios provider voice (i + 1) rest

/-- Collected file names when the head chunk completes. -/
theorem synthLoop_fst_completed (provider : Provider) (voice chunk : List Char)
    (rest : List (List Char)) (i : Nat) (fs : FS) (audio : List Nat)
    (ho : provider voice (i + 1) chunk = .completed audio) :
    (synthLoop provider voice i (chunk :: rest) fs).1 =
      chunkFilename (i + 1) ::
        (synthLoop provider voice (i + 1) rest
          (writeFS fs (chunkFilename (i + 1)) audio)).1 := by
  simp [synthLoop, synthesize_chunk, ho]

/-- Resulting file system when the head chunk completes. -/
theorem synthLoop_snd_completed (provider : Provider) (voice chunk : List Char)
    (rest : List (List Char)) (i : Nat) (fs : FS) (audio : List Nat)
    (ho : provider voice (i + 1) chunk = .completed audio) :
    (synthLoop provider voice i (chunk :: rest) fs).2 =
      (synthLoop provider voice (i + 1) rest
        (writeFS fs (chunkFilename (i + 1)) audio)).2 := by
  simp [synthLoop, synthesize_chunk, ho]

/-- A cancelled head chunk is skipped entirely. -/
theorem synthLoop_eq_canceled (provider : Provider) (voice chunk : List Char)
    (rest : List (List Char)) (i : Nat) (fs : FS) (e : Bool) (d : List Char)
    (ho : provider voice (i + 1) chunk = .canceled e d) :
    synthLoop provider voice i (chunk :: rest) fs =
      synthLoop provider voice (i + 1) rest fs := by
  simp [synthLoop, synthesize_chunk, ho]

/-- A head chunk failing with an exception is skipped entirely. -/
theorem synthLoop_eq_raised (provider : Provider) (voice chunk : List Char)
    (rest : List (List Char)) (i : Nat) (fs : FS) (m : List Char)
    (ho : provider voice (i + 1) chunk = .raised m) :
    synthLoop provider voice i (chunk :: rest) fs =
      synthLoop provider voice (i + 1) rest fs := by
  simp [synthLoop, synthesize_chunk, ho]

/-- `successAudios` unfolding on a completed head chunk. -/
theorem successAudios_cons_completed (provider : Provider) (voice chunk : List Char)
    (rest : List (List Char)) (i : Nat) (audio : List Nat)
    (ho : provider voice (i + 1) chunk = .completed audio) :
    successAudios provider voice i (chunk :: rest) =
      audio :: successAudios provider voice (i + 1) rest := by
  simp [successAudios, ho]

/-- `successAudios` unfolding on a cancelled head chunk. -/
theorem successAudios_cons_canceled (provider : Provider) (voice chunk : List Char)
    (rest : List (List Char)) (i : Nat) (e : Bool) (d : List Char)
    (ho : provider voice (i + 1) chunk = .canceled e d) :
    successAudios provider voice i (chunk :: rest) =
      successAudios provider voice (i + 1) rest := by
  simp [successAudios, ho]

/-- `successAudios` unfolding on a head chunk raising an exception. -/
theorem successAudios_cons_raised (provider : Provider) (voice chunk : List Char)
    (rest : List (List Char)) (i : Nat) (m : List Char)
    (ho : provider voice (i + 1) chunk = .raised m) :
    successAudios provider voice i (chunk :: rest) =
      successAudios provider voice (i + 1) rest := by
  simp [successAudios, ho]

/-- The synthesis loop only writes the chunk artifacts of the request:
every other file keeps its prior content. -/
theorem synthLoop_frame (provider : Provider) (voice : List Char) :
    ∀ (chunks : List (List Char)) (i : Nat) (fs : FS) (name : List Char),
      (∀ k, k < chunks.length → name ≠ chunkFilename (i + k + 1)) →
      readFS (synthLoop provider voice i chunks fs).2 name = readFS fs name := by
  intro chunks
  induction chunks with
  | nil => intro i fs name _; rfl
  | cons chunk rest ih =>
    intro i fs name hname
    have hrest : ∀ k, k < rest.length → name ≠ chunkFilename (i + 1 + k + 1) := by
      intro k hk
      have h := hname (k + 1) (by simpa using Nat.succ_lt_succ hk)
      have harith : i + (k + 1) + 1 = i + 1 + k + 1 := by omega
      rw [harith] at h
      exact h
    have hhead : name ≠ chunkFilename (i + 1) := hname 0 (by simp)
    cases ho : provider voice (i + 1) chunk with
    | completed audio =>
      rw [synthLoop_snd_completed provider voice chunk rest i fs audio ho]
      rw [ih (i + 1) (writeFS fs (chunkFilename (i + 1)) audio) name hrest]
      exact readFS_writeFS_ne fs name (chunkFilename (i + 1)) audio hhead
    | canceled e d =>
      rw [synthLoop_eq_canceled provider voice chunk rest i fs e d ho]
      exact ih (i + 1) fs name hrest
    | raised m =>
      rw [synthLoop_eq_raised provider voice chunk rest i fs m ho]
      exact ih (i + 1) fs name hrest

/-- Every collected audio file name is the artifact of one of the request's
chunk numbers. -/
theorem synthLoop_files_mem (provider : Provider) (voice : List Char) :
    ∀ (chunks : List (List Char)) (i : Nat) (fs : FS) (f : List Char),
      f ∈ (synthLoop provider voice i chunks fs).1 →
      ∃ k, k < chunks.length ∧ f = chunkFilename (i + k + 1) := by
  intro chunks
  induction chunks with
  | nil => intro i fs f hf; simp [synthLoop] at hf
  | cons chunk rest ih =>
    intro i fs f hf
    cases ho : provider voice (i + 1) chunk with
    | completed audio =>
      rw [synthLoop_fst_completed provider voice chunk rest i fs audio ho] at hf
      rcases List.mem_cons.mp hf with h | h
      · exact ⟨0, by simp, by simpa using h⟩
      · obtain ⟨k, hk, hkf⟩ := ih (i + 1) _ f h
        refine ⟨k + 1, by simpa using Nat.succ_lt_succ hk, ?_⟩
        have harith : i + (k + 1) + 1 = i + 1 + k + 1 := by omega
        rw [harith]
        exact hkf
    | canceled e d =>
      rw [synthLoop_eq_canceled provider voice chunk rest i fs e d ho] at hf
      obtain ⟨k, hk, hkf⟩ := ih (i + 1) fs f hf
      refine ⟨k + 1, by simpa using Nat.succ_lt_succ hk, ?_⟩
      have harith : i + (k + 1) + 1 = i + 1 + k + 1 := by omega
      rw [harith]
      exact hkf
    | raised m =>
      rw [synthLoop_eq_raised provider voice chunk rest i fs m ho] at hf
      obtain ⟨k, hk, hkf⟩ := ih (i + 1) fs f hf
      refine ⟨k + 1, by simpa using Nat.succ_lt_succ hk, ?_⟩
      have harith : i + (k + 1) + 1 = i + 1 + k + 1 := by omega
      rw [harith]
      exact hkf

/-- Reading back the collected audio files after the loop yields exactly the
audio of the successful chunks, in chunk order. -/
theorem synthLoop_reads (provider : Provider) (voice : List Char) :
    ∀ (chunks : List (List Char)) (i : Nat) (fs : FS),
      ((synthLoop provider voice i chunks fs).1).map
          (fun f => (readFS (synthLoop provider voice i chunks fs).2 f).getD []) =
        successAudios provider voice i chunks := by
  intro chunks
  induction chunks with
  | nil => intro i fs; rfl
  | cons chunk rest ih =>
    intro i fs
    cases ho : provider voice (i + 1) chunk with
    | completed audio =>
      rw [synthLoop_fst_completed provider voice chunk rest i fs audio ho,
        synthLoop_snd_completed provider voice chunk rest i fs audio ho,
        successAudios_cons_completed provider voice chunk rest i audio ho,
        List.map_cons]
      congr 1
      · rw [synthLoop_frame provider voice rest (i + 1)
            (writeFS fs (chunkFilename (i + 1)) audio) (chunkFilename (i + 1))
            (fun k hk heq => by have := chunkFilename_inj _ _ heq; omega)]
        rw [readFS_writeFS_same]
        rfl
      · exact ih (i + 1) (writeFS fs (chunkFilename (i + 1)) audio)
    | canceled e d =>
      rw [synthLoop_eq_canceled provider voice chunk rest i fs e d ho,
        successAudios_cons_canceled provider voice chunk rest i e d ho]
      exact ih (i + 1) fs
    | raised m =>
      rw [synthLoop_eq_raised provider voice chunk rest i fs m ho,
        successAudios_cons_raised provider voice chunk rest i m ho]
      exact ih (i + 1) fs

/-- The number of collected audio files equals the number of successful
chunks. -/
theorem synthLoop_files_length (provider : Provider) (voice : List Char)
    (chunks : List (List Char)) (i : Nat) (fs : FS) :
    (synthLoop provider voice i chunks fs).1.length =
      (successAudios provider voice i chunks).length := by
  have h := congrArg List.length (synthLoop_reads provider voice chunks i fs)
  simpa using h

/-- Reading the output artifact after the assembly fold: starting from
content `acc`, the bytes of the listed files (read from the base file
system) are appended in order. -/
theorem concat_foldl_read_out (out : List Char) :
    ∀ (files : List (List Char)) (fs : FS) (acc : List Nat),
      out ∉ files →
      readFS (files.foldl
          (fun f af => writeFS f out ((readFS f out).getD [] ++ (readFS f af).getD []))
          (writeFS fs out acc)) out
        = some (acc ++ (files.map (fun f => (readFS fs f).getD [])).flatten) := by
  intro files
  induction files with
  | nil => intro fs acc _; simp [readFS_writeFS_same]
  | cons af rest ih =>
    intro fs acc hmem
    have haf : af ≠ out := fun h => hmem (by simp [h])
    simp only [List.foldl_cons]
    rw [readFS_writeFS_same, readFS_writeFS_ne fs af out acc haf, writeFS_writeFS]
    simp only [Option.getD_some]
    rw [ih fs (acc ++ (readFS fs af).getD [])
      (fun hm => hmem (List.mem_cons_of_mem af hm))]
    simp [List.append_assoc]

/-! ## Claim C4 -/

/-- Claim C4 confirmed (for requests in which at least one chunk succeeds;
when none does, nothing is written — see C9): the final output file's byte
content equals the raw concatenation, in chunk-index order, of the audio of
exactly the successfully synthesized chunks; cancelled chunks are dropped
without aborting the request.  The hypothesis on `output_filename` records
that the output name is none of the request's own per-chunk artifact names
(true of the actual names `output.mp3` and `preview.mp3`). -/
theorem C4_output_is_concat_of_successes (provider : Provider)
    (text voice voice_type output_filename : List Char) (fs : FS)
    (chunks : List (List Char))
    (hsplit : split_text_into_chunks text 5000 = some chunks)
    (hout : ∀ k, k < chunks.length → output_filename ≠ chunkFilename (k + 1))
    (hsucc : successAudios provider voice 0 chunks ≠ []) :
    readFS (text_to_speech_in_chunks provider text voice voice_type output_filename fs)
        output_filename
      = some (successAudios provider voice 0 chunks).flatten := by
  simp only [text_to_speech_in_chunks, hsplit, Option.getD_some]
  have hlen := synthLoop_files_length provider voice chunks 0 fs
  have hne : ¬ ((synthLoop provider voice 0 chunks fs).1 = []) := by
    intro h0
    rw [h0] at hlen
    exact hsucc (List.length_eq_zero.mp hlen.symm)
  rw [if_neg hne]
  unfold concatFiles
  have hmem : output_filename ∉ (synthLoop provider voice 0 chunks fs).1 := by
    intro hm
    obtain ⟨k, hk, hf⟩ := synthLoop_files_mem provider voice chunks 0 fs _ hm
    rw [Nat.zero_add] at hf
    exact hout k hk hf
  rw [concat_foldl_read_out output_filename _ _ [] hmem]
  rw [synthLoop_reads]
  simp

/-! ## Claim C9 -/

/-- Claim C9 confirmed: when no chunk synthesizes successfully — including
the empty text, which yields zero chunks — the guard `if audio_files:`
prevents the final output file from being created, opened or overwritten:
its prior content (or absence) is exactly preserved. -/
theorem C9_no_output_when_no_success (provider : Provider)
    (text voice voice_type output_filename : List Char) (fs : FS)
    (chunks : List (List Char))
    (hsplit : split_text_into_chunks text 5000 = some chunks)
    (hnone : successAudios provider voice 0 chunks = [])
    (hout : ∀ k, k < chunks.length → output_filename ≠ chunkFilename (k + 1)) :
    readFS (text_to_speech_in_chunks provider text voice voice_type output_filename fs)
        output_filename
      = readFS fs output_filename := by
  simp only [text_to_speech_in_chunks, hsplit, Option.getD_some]
  have hlen := synthLoop_files_length provider voice chunks 0 fs
  rw [hnone] at hlen
  have hnil : (synthLoop provider voice 0 chunks fs).1 = [] :=
    List.length_eq_zero.mp (by simpa using hlen)
  rw [if_pos hnil]
  refine synthLoop_frame provider voice chunks 0 fs output_filename ?_
  intro k hk
  rw [Nat.zero_add]
  exact hout k hk

/-! ## Chunker lemmas, part 1: the split phase preserves the text -/

/-- Unfolding of `stripWs` on a cons cell. -/
theorem stripWs_cons (c : Char) (cs : List Char) :
    stripWs (c :: cs) = if isPyWs c then stripWs cs else c :: stripWs cs := by
  simp only [stripWs, List.filter_cons]
  by_cases h : isPyWs c = true <;> simp [h]

/-- `takeRun` splits its input: run and remainder concatenate back. -/
theorem takeRun_append (p : Char → Bool) :
    ∀ s : List Char, (takeRun p s).1 ++ (takeRun p s).2 = s := by
  intro s
  induction s with
  | nil => rfl
  | cons c cs ih =>
    by_cases h : p c
    · simpa [takeRun, h] using ih
    · simp [takeRun, h]

/-- On a run-starting character, `takeRun` takes it. -/
theorem takeRun_cons_pos (p : Char → Bool) (c : Char) (cs : List Char) (h : p c = true) :
    takeRun p (c :: cs) = (c :: (takeRun p cs).1, (takeRun p cs).2) := by
  simp [takeRun, h]

/-- The remainder of `takeRun` is never longer than the input. -/
theorem takeRun_snd_length (p : Char → Bool) (s : List Char) :
    (takeRun p s).2.length ≤ s.length := by
  have h := congrArg List.length (takeRun_append p s)
  simp only [List.length_append] at h
  omega

/-- `wordScan` consumes a prefix of the remaining text: the returned chunk
extends the accumulator with exactly the consumed characters. -/
theorem wordScan_spec :
    ∀ (rest chunkRev accRev : List Char),
      ∃ consumed,
        (wordScan chunkRev accRev rest).1 = chunkRev.reverse ++ consumed ∧
        rest = consumed ++ (wordScan chunkRev accRev rest).2.2 := by
  intro rest
  induction rest with
  | nil => intro chunkRev accRev; exact ⟨[], by simp [wordScan], by simp [wordScan]⟩
  | cons r rest ih =>
    intro chunkRev accRev
    simp only [wordScan]
    by_cases h1 : (r = '-' && hyphLookbehind accRev && hyphLookahead rest) = true
    · rw [if_pos h1]
      have hr : r = '-' := by
        have h := h1
        simp only [Bool.and_eq_true, decide_eq_true_eq] at h
        exact h.1.1
      exact ⟨[r], by simp [hr, List.reverse_cons], by simp⟩
    · rw [if_neg h1]
      by_cases h2 : isPyWs r = true
      · rw [if_pos h2]
        exact ⟨[], by simp, by simp⟩
      · rw [if_neg h2]
        by_cases h3 : (lastIsWordPunct accRev && emDashAhead (r :: rest)) = true
        · rw [if_pos h3]
          exact ⟨[], by simp, by simp⟩
        · rw [if_neg h3]
          obtain ⟨consumed, hc1, hc2⟩ := ih (r :: chunkRev) (r :: accRev)
          refine ⟨r :: consumed, ?_, ?_⟩
          · rw [hc1]
            simp [List.reverse_cons]
          · simpa using hc2

/-- `wordScan` never returns more text than it was given. -/
theorem wordScan_snd_length (rest chunkRev accRev : List Char) :
    (wordScan chunkRev accRev rest).2.2.length ≤ rest.length := by
  obtain ⟨consumed, _, hc⟩ := wordScan_spec rest chunkRev accRev
  have h := congrArg List.length hc
  simp only [List.length_append] at h
  omega

/-- If an em-dash run is ahead, the hyphen run is nonempty. -/
theorem emDashAhead_fst_ne_nil (s : List Char) (h : emDashAhead s = true) :
    (takeRun (fun d => d = '-') s).1 ≠ [] := by
  intro hnil
  simp only [emDashAhead] at h
  rw [hnil] at h
  simp at h

/-- The chunks produced by `splitLoop` concatenate back to the input text
whenever the fuel covers its length. -/
theorem splitLoop_flatten :
    ∀ (fuel : Nat) (s accRev : List Char), s.length ≤ fuel →
      (splitLoop fuel accRev s).flatten = s := by
  intro fuel
  induction fuel with
  | zero =>
    intro s accRev hs
    have h0 : s = [] := List.length_eq_zero.mp (Nat.le_zero.mp hs)
    subst h0
    rfl
  | succ f ih =>
    intro s accRev hs
    match s with
    | [] => rfl
    | c :: rest =>
      rw [splitLoop]
      by_cases h1 : isPyWs c = true
      · rw [if_pos h1]
        have htk := takeRun_append isPyWs (c :: rest)
        have hlen : (takeRun isPyWs (c :: rest)).2.length ≤ f := by
          have h2' := takeRun_snd_length isPyWs rest
          simp only [List.length_cons] at hs
          calc (takeRun isPyWs (c :: rest)).2.length
              = (takeRun isPyWs rest).2.length := by
                rw [takeRun_cons_pos isPyWs c rest h1]
            _ ≤ rest.length := h2'
            _ ≤ f := by omega
        simp only [List.flatten_cons]
        rw [ih _ _ hlen]
        exact htk
      · rw [if_neg h1]
        by_cases h2 : emDashHere accRev (c :: rest) = true
        · rw [if_pos h2]
          have hdash : emDashAhead (c :: rest) = true := by
            have h := h2
            simp only [emDashHere, Bool.and_eq_true] at h
            exact h.2
          have htk := takeRun_append (fun d => d = '-') (c :: rest)
          have hne := emDashAhead_fst_ne_nil (c :: rest) hdash
          have hlen : (takeRun (fun d => d = '-') (c :: rest)).2.length ≤ f := by
            have hl := congrArg List.length htk
            simp only [List.length_append, List.length_cons] at hl
            have hpos : 1 ≤ (takeRun (fun d => d = '-') (c :: rest)).1.length := by
              cases hfst : (takeRun (fun d => d = '-') (c :: rest)).1 with
              | nil => exact absurd hfst hne
              | cons a l => simp
            simp only [List.length_cons] at hs
            omega
          simp only [List.flatten_cons]
          rw [ih _ _ hlen]
          exact htk
        · rw [if_neg h2]
          obtain ⟨consumed, hc1, hc2⟩ := wordScan_spec rest [c] (c :: accRev)
          have hlen : (wordScan [c] (c :: accRev) rest).2.2.length ≤ f := by
            have hw := wordScan_snd_length rest [c] (c :: accRev)
            simp only [List.length_cons] at hs
            omega
          simp only [List.flatten_cons]
          rw [ih _ _ hlen, hc1]
          simp only [List.reverse_cons, List.reverse_nil, List.nil_append,
            List.singleton_append, List.cons_append, List.append_assoc]
          rw [← hc2]

/-- `textwrapSplit` chunks concatenate back to the text. -/
theorem textwrapSplit_flatten (text : List Char) :
    (textwrapSplit text).flatten = text :=
  splitLoop_flatten text.length text [] le_rfl

/-! ## Chunker lemmas, part 2: whitespace-stripped content of the munge -/

/-- Stripping whitespace distributes over concatenation. -/
theorem stripWs_append (a b : List Char) :
    stripWs (a ++ b) = stripWs a ++ stripWs b := by
  simp [stripWs, List.filter_append]

/-- An all-whitespace chunk has no stripped content. -/
theorem stripWs_eq_nil_of_wsOnly (l : List Char) (h : wsOnly l = true) :
    stripWs l = [] := by
  induction l with
  | nil => rfl
  | cons c cs ih =>
    simp only [wsOnly, List.all_cons, Bool.and_eq_true] at h
    rw [stripWs_cons, if_pos h.1]
    exact ih (by simpa [wsOnly] using h.2)

/-- Tab expansion does not change the non-whitespace content. -/
theorem stripWs_expandtabsAux :
    ∀ (s : List Char) (col : Nat), stripWs (expandtabsAux s col) = stripWs s := by
  intro s
  induction s with
  | nil => intro col; rfl
  | cons c cs ih =>
    intro col
    rw [expandtabsAux]
    by_cases h1 : c = '\t'
    · subst h1
      rw [if_pos rfl, stripWs_append, stripWs_eq_nil_of_wsOnly _ ?hws, ih]
      case hws => simp [wsOnly, List.all_eq_true, isPyWs]
      rw [stripWs_cons, if_pos (show isPyWs '\t' = true from rfl)]
      rfl
    · rw [if_neg h1]
      by_cases h2 : (decide (c = '\n') || decide (c = '\r')) = true
      · rw [if_pos h2, stripWs_cons, stripWs_cons]
        by_cases h3 : isPyWs c = true <;> simp [h3, ih 0]
      · rw [if_neg h2, stripWs_cons, stripWs_cons]
        by_cases h3 : isPyWs c = true <;> simp [h3, ih (col + 1)]

/-- Whitespace replacement does not change the non-whitespace content. -/
theorem stripWs_wsReplace (l : List Char) :
    stripWs (l.map (fun c => if isPyWs c then ' ' else c)) = stripWs l := by
  induction l with
  | nil => rfl
  | cons c cs ih =>
    rw [List.map_cons]
    by_cases h : isPyWs c = true
    · rw [if_pos h, stripWs_cons, if_pos (show isPyWs ' ' = true from rfl),
        stripWs_cons, if_pos h]
      exact ih
    · rw [if_neg h, stripWs_cons, if_neg h, stripWs_cons, if_neg h, ih]

/-- Whitespace munging does not change the non-whitespace content. -/
theorem stripWs_munge (t : List Char) :
    stripWs (munge_whitespace t) = stripWs t := by
  unfold munge_whitespace expandtabs
  rw [stripWs_wsReplace, stripWs_expandtabsAux]

/-! ## Chunker lemmas, part 3: the wrap phase -/

/-- Total character count of a chunk list. -/
def totalLen (cs : List (List Char)) : Nat :=
  (cs.map List.length).sum

/-- The termination measure is total length plus chunk count. -/
theorem muChunks_eq (cs : List (List Char)) : muChunks cs = totalLen cs + cs.length := rfl

/-- `muChunks` on a cons cell. -/
theorem muChunks_cons (c : List Char) (cs : List (List Char)) :
    muChunks (c :: cs) = c.length + muChunks cs + 1 := by
  simp [muChunks, muChunks_eq]
  omega

/-- `muChunks` distributes over concatenation. -/
theorem muChunks_append (a b : List (List Char)) :
    muChunks (a ++ b) = muChunks a + muChunks b := by
  simp [muChunks, List.sum_append]
  omega

/-- `greedyTake` moves a prefix of the chunk queue onto the line, tracking
its total length. -/
theorem greedyTake_spec (width : Nat) :
    ∀ (chunks : List (List Char)) (curLen : Nat) (cur : List (List Char)),
      ∃ popped,
        (greedyTake width curLen cur chunks).1 = cur ++ popped ∧
        chunks = popped ++ (greedyTake width curLen cur chunks).2.2 ∧
        (greedyTake width curLen cur chunks).2.1 = curLen + totalLen popped := by
  intro chunks
  induction chunks with
  | nil =>
    intro curLen cur
    exact ⟨[], by simp [greedyTake], by simp [greedyTake], by simp [greedyTake, totalLen]⟩
  | cons c rest ih =>
    intro curLen cur
    by_cases h : curLen + c.length ≤ width
    · obtain ⟨popped, h1, h2, h3⟩ := ih (curLen + c.length) (cur ++ [c])
      refine ⟨c :: popped, ?_, ?_, ?_⟩
      · simp only [greedyTake, if_pos h]
        rw [h1]
        simp
      · simp only [greedyTake, if_pos h]
        exact congrArg (List.cons c) h2
      · simp only [greedyTake, if_pos h]
        rw [h3]
        simp [totalLen]
        omega
    · exact ⟨[], by simp [greedyTake, if_neg h], by simp [greedyTake, if_neg h],
        by simp [greedyTake, if_neg h, totalLen]⟩

/-- The accumulated line length never exceeds the width when it starts
within it. -/
theorem greedyTake_len_le (width : Nat) :
    ∀ (chunks : List (List Char)) (curLen : Nat) (cur : List (List Char)),
      curLen ≤ width → (greedyTake width curLen cur chunks).2.1 ≤ width := by
  intro chunks
  induction chunks with
  | nil => intro curLen cur h; simpa [greedyTake] using h
  | cons c rest ih =>
    intro curLen cur h
    by_cases hc : curLen + c.length ≤ width
    · simp only [greedyTake, if_pos hc]
      exact ih _ _ hc
    · simpa [greedyTake, if_neg hc] using h

/-- When the greedy loop stops at its first chunk without taking it, the
chunk does not fit. -/
theorem greedyTake_cons_stop (width curLen : Nat) (cur : List (List Char))
    (c : List Char) (rest : List (List Char)) (h : ¬ (curLen + c.length ≤ width)) :
    greedyTake width curLen cur (c :: rest) = (cur, curLen, c :: rest) := by
  simp [greedyTake, if_neg h]

/-- The two pieces cut by `_handle_long_word` reassemble the chunk. -/
theorem handle_long_word_append (chunk : List Char) (curLen width : Nat) :
    (handle_long_word chunk curLen width).1 ++ (handle_long_word chunk curLen width).2
      = chunk :=
  List.take_append_drop _ _

/-- `rfindHyphen` returns an index inside the list. -/
theorem rfindHyphen_lt (l : List Char) :
    ∀ hy, rfindHyphen l = some hy → hy < l.length := by
  induction l with
  | nil => intro hy h; cases h
  | cons c rest ih =>
    intro hy h
    rw [rfindHyphen] at h
    cases hr : rfindHyphen rest with
    | some i =>
      rw [hr] at h
      injection h with h'
      subst h'
      have := ih i hr
      simp only [List.length_cons]
      omega
    | none =>
      rw [hr] at h
      by_cases hc : c = '-'
      · rw [if_pos hc] at h
        injection h with h'
        subst h'
        simp
      · rw [if_neg hc] at h
        cases h

/-- The part `_handle_long_word` places on the line fits the remaining
space when the width is positive. -/
theorem handle_long_word_fst_le (chunk : List Char) (curLen width : Nat)
    (hw : 1 ≤ width) :
    (handle_long_word chunk curLen width).1.length ≤ width - curLen := by
  have hnlt : ¬ (width < 1) := by omega
  simp only [handle_long_word, if_neg hnlt]
  rw [List.length_take]
  split
  · rename_i hbig
    split
    · rename_i hy hsome
      split
      · rename_i hcond
        have hlt := rfindHyphen_lt _ hy hsome
        rw [List.length_take] at hlt
        have h1 : hy < width - curLen := lt_of_lt_of_le hlt inf_le_left
        have h2 : (hy + 1) ⊓ chunk.length ≤ hy + 1 := inf_le_left
        omega
      · exact inf_le_left
    · exact inf_le_left
  · exact inf_le_left

/-- When the line is still empty, `_handle_long_word` always cuts at least
one character off a nonempty chunk. -/
theorem handle_long_word_snd_lt (chunk : List Char) (width : Nat)
    (hne : chunk ≠ []) :
    (handle_long_word chunk 0 width).2.length < chunk.length := by
  have hlen : 1 ≤ chunk.length := by
    cases chunk with
    | nil => exact absurd rfl hne
    | cons a l => simp
  simp only [handle_long_word]
  rw [List.length_drop]
  have hsl : 1 ≤ (if width < 1 then 1 else width - 0) := by
    split <;> omega
  generalize hgen : (if width < 1 then 1 else width - 0) = sl at hsl ⊢
  repeat' split
  all_goals (apply Nat.sub_lt)
  any_goals omega
  all_goals exact Nat.succ_pos _

/-- The emitted line of `wrapStep` always carries the flattened line chunks
(`[]` when no line is emitted). -/
theorem lineBytes_getD (cur3 : List (List Char)) :
    (if cur3 = [] then none else some cur3.flatten).getD [] = cur3.flatten := by
  by_cases h : cur3 = []
  · subst h
    rfl
  · rw [if_neg h]
    rfl

/-- Dropping a trailing all-whitespace line chunk keeps the stripped
content. -/
theorem stripWs_flatten_dropLast (cur2 : List (List Char)) (l : List Char)
    (hlast : cur2.getLast? = some l) (hws : wsOnly l = true) :
    stripWs cur2.dropLast.flatten = stripWs cur2.flatten := by
  have hne : cur2 ≠ [] := by
    intro h0
    rw [h0] at hlast
    cases hlast
  have hl : cur2.getLast hne = l := by
    have h := List.getLast?_eq_getLast cur2 hne
    rw [hlast] at h
    exact (Option.some_inj.mp h).symm
  conv_rhs => rw [← List.dropLast_append_getLast hne]
  rw [List.flatten_append, stripWs_append, hl]
  simp [stripWs_eq_nil_of_wsOnly l hws]

/-- Dropping the last chunk never increases the total length. -/
theorem totalLen_dropLast_le (cur2 : List (List Char)) :
    totalLen cur2.dropLast ≤ totalLen cur2 := by
  by_cases hne : cur2 = []
  · subst hne
    exact le_rfl
  · conv_rhs => rw [← List.dropLast_append_getLast hne]
    simp [totalLen, List.sum_append]

/-- The length of a flattened line is the total length of its chunks. -/
theorem length_flatten_totalLen (cs : List (List Char)) :
    cs.flatten.length = totalLen cs := by
  simp [totalLen, List.length_flatten]

/-- The long-word stage of `wrapStep` (the `if chunks and len(chunks[-1]) >
width` block), as a named function of the greedy loop's results. -/
def wrapHandle (width curLen : Nat) (cur : List (List Char)) :
    List (List Char) → List (List Char) × List (List Char)
  | [] => (cur, [])
  | c :: rest =>
    if width < c.length then
      (cur ++ [(handle_long_word c curLen width).1],
        (handle_long_word c curLen width).2 :: rest)
    else
      (cur, c :: rest)

/-- The trailing-whitespace drop of `wrapStep`, as a named function. -/
def wrapTrailing (cur2 : List (List Char)) : List (List Char) :=
  match cur2.getLast? with
  | some l => if wsOnly l then cur2.dropLast else cur2
  | none => cur2

/-- `wrapStep` on a nonempty queue is the composite of the leading drop, the
greedy loop, the long-word stage and the trailing drop. -/
theorem wrapStep_eq_stages (width : Nat) (hl : Bool) (c0 : List Char)
    (rest0 : List (List Char)) :
    wrapStep width hl (c0 :: rest0) =
      (let cs := if hl && wsOnly c0 then rest0 else c0 :: rest0
       let g := greedyTake width 0 [] cs
       let p := wrapHandle width g.2.1 g.1 g.2.2
       let cur3 := wrapTrailing p.1
       (if cur3 = [] then none else some cur3.flatten, p.2)) := rfl

/-- The long-word stage only moves characters: line plus queue flatten to
the same text. -/
theorem wrapHandle_flatten (width curLen : Nat) (cur : List (List Char)) :
    ∀ rem : List (List Char),
      (wrapHandle width curLen cur rem).1.flatten ++
          (wrapHandle width curLen cur rem).2.flatten
        = cur.flatten ++ rem.flatten := by
  intro rem
  cases rem with
  | nil => simp [wrapHandle]
  | cons c rest =>
    by_cases h : width < c.length
    · simp only [wrapHandle, if_pos h, List.flatten_append, List.flatten_cons,
        List.flatten_nil, List.append_nil, List.append_assoc]
      rw [← List.append_assoc (handle_long_word c curLen width).1,
        handle_long_word_append]
    · simp [wrapHandle, if_neg h]

/-- The remainder of `handle_long_word` never exceeds the chunk. -/
theorem handle_long_word_snd_le (chunk : List Char) (curLen width : Nat) :
    (handle_long_word chunk curLen width).2.length ≤ chunk.length := by
  simp only [handle_long_word]
  rw [List.length_drop]
  omega

/-- The long-word stage never grows the remaining queue's measure. -/
theorem wrapHandle_snd_mu_le (width curLen : Nat) (cur : List (List Char)) :
    ∀ rem : List (List Char),
      muChunks (wrapHandle width curLen cur rem).2 ≤ muChunks rem := by
  intro rem
  cases rem with
  | nil => simp [wrapHandle]
  | cons c rest =>
    by_cases h : width < c.length
    · simp only [wrapHandle, if_pos h, muChunks_cons]
      have := handle_long_word_snd_le c curLen width
      omega
    · simp [wrapHandle, if_neg h]

/-- Total length distributes over concatenation. -/
theorem totalLen_append (a b : List (List Char)) :
    totalLen (a ++ b) = totalLen a + totalLen b := by
  simp [totalLen, List.sum_append]

/-- The long-word stage keeps the line within the width. -/
theorem wrapHandle_fst_totalLen_le (width curLen : Nat) (cur : List (List Char))
    (hw : 1 ≤ width) (hcur : totalLen cur = curLen) (hcl : curLen ≤ width) :
    ∀ rem : List (List Char),
      totalLen (wrapHandle width curLen cur rem).1 ≤ width := by
  intro rem
  cases rem with
  | nil => simpa [wrapHandle, hcur] using hcl
  | cons c rest =>
    by_cases h : width < c.length
    · simp only [wrapHandle, if_pos h, totalLen_append, hcur]
      have hfit := handle_long_word_fst_le c curLen width hw
      simp only [totalLen, List.map_cons, List.map_nil, List.sum_cons, List.sum_nil]
      omega
    · simpa [wrapHandle, if_neg h, hcur] using hcl

/-- The trailing drop keeps the stripped content of the line. -/
theorem wrapTrailing_stripWs (cur2 : List (List Char)) :
    stripWs (wrapTrailing cur2).flatten = stripWs cur2.flatten := by
  unfold wrapTrailing
  split
  · rename_i l hlast
    split
    · rename_i hws
      exact stripWs_flatten_dropLast cur2 l hlast hws
    · rfl
  · rfl

/-- The trailing drop never grows the line. -/
theorem wrapTrailing_totalLen_le (cur2 : List (List Char)) :
    totalLen (wrapTrailing cur2) ≤ totalLen cur2 := by
  unfold wrapTrailing
  split
  · rename_i l hlast
    split
    · exact totalLen_dropLast_le cur2
    · exact le_rfl
  · exact le_rfl

/-- One outer-loop iteration preserves the stripped content: emitted line
plus remaining queue carry the same non-whitespace text as the input
queue. -/
theorem wrapStep_content (width : Nat) (hl : Bool) (chunks : List (List Char)) :
    stripWs ((wrapStep width hl chunks).1.getD [] ++ (wrapStep width hl chunks).2.flatten)
      = stripWs chunks.flatten := by
  cases chunks with
  | nil => rfl
  | cons c0 rest0 =>
    rw [wrapStep_eq_stages]
    have hcsContent : stripWs (if (hl && wsOnly c0) = true then rest0 else c0 :: rest0).flatten
        = stripWs (c0 :: rest0).flatten := by
      split
      · rename_i hdrop
        simp only [Bool.and_eq_true] at hdrop
        simp [List.flatten_cons, stripWs_append, stripWs_eq_nil_of_wsOnly c0 hdrop.2]
      · rfl
    rw [← hcsContent]
    generalize (if (hl && wsOnly c0) = true then rest0 else c0 :: rest0) = cs
    dsimp only
    obtain ⟨popped, hp1, hp2, hp3⟩ := greedyTake_spec width cs 0 []
    rcases hg : greedyTake width 0 [] cs with ⟨cur, curLen, rem⟩
    rw [hg] at hp1 hp2 hp3
    simp only [List.nil_append] at hp1 hp2 hp3
    dsimp only
    rw [lineBytes_getD, stripWs_append, wrapTrailing_stripWs, ← stripWs_append,
      wrapHandle_flatten, hp1, hp2]
    rw [List.flatten_append]

theorem greedyHandle_mu_le (width : Nat) (cs : List (List Char)) :
    muChunks (wrapHandle width (greedyTake width 0 [] cs).2.1 (greedyTake width 0 [] cs).1
        (greedyTake width 0 [] cs).2.2).2 ≤ muChunks cs := by
  obtain ⟨popped, hp1, hp2, hp3⟩ := greedyTake_spec width cs 0 []
  rcases hg : greedyTake width 0 [] cs with ⟨cur, curLen, rem⟩
  rw [hg] at hp1 hp2 hp3
  simp only [List.nil_append] at hp1 hp2 hp3
  dsimp only
  have h1 := wrapHandle_snd_mu_le width curLen cur rem
  have h2 : muChunks cs = muChunks popped + muChunks rem := by
    rw [hp2, muChunks_append]
  omega

theorem wrapStep_mu_lt (width : Nat) (hl : Bool) (c0 : List Char)
    (rest0 : List (List Char)) :
    muChunks (wrapStep width hl (c0 :: rest0)).2 < muChunks (c0 :: rest0) := by
  rw [wrapStep_eq_stages]
  dsimp only
  by_cases hdrop : (hl && wsOnly c0) = true
  · rw [if_pos hdrop]
    have h := greedyHandle_mu_le width rest0
    have h2 := muChunks_cons c0 rest0
    omega
  · rw [if_neg hdrop]
    by_cases hfit : 0 + c0.length ≤ width
    · have hfit' : c0.length ≤ width := by omega
      have hgo : greedyTake width 0 [] (c0 :: rest0) =
          greedyTake width c0.length [c0] rest0 := by
        simp [greedyTake, hfit']
      rw [hgo]
      obtain ⟨popped, hp1, hp2, hp3⟩ :=
        greedyTake_spec width rest0 c0.length [c0]
      rcases hg : greedyTake width c0.length [c0] rest0 with ⟨cur, curLen, rem⟩
      rw [hg] at hp1 hp2 hp3
      dsimp only
      have h1 := wrapHandle_snd_mu_le width curLen cur rem
      have h2 : muChunks rest0 = muChunks popped + muChunks rem := by
        rw [hp2, muChunks_append]
      have h3 := muChunks_cons c0 rest0
      omega
    · have hstop := greedyTake_cons_stop width 0 [] c0 rest0 hfit
      rw [hstop]
      dsimp only
      have hbig : width < c0.length := by omega
      have hne : c0 ≠ [] := by
        intro h0
        rw [h0] at hbig
        simp at hbig
      simp only [wrapHandle, if_pos hbig, muChunks_cons]
      have := handle_long_word_snd_lt c0 width hne
      omega

theorem wrapStep_line_le (width : Nat) (hl : Bool) (chunks : List (List Char))
    (l : List Char) (hw : 1 ≤ width)
    (hline : (wrapStep width hl chunks).1 = some l) : l.length ≤ width := by
  cases chunks with
  | nil => simp [wrapStep] at hline
  | cons c0 rest0 =>
    rw [wrapStep_eq_stages] at hline
    dsimp only at hline
    generalize hcseq : (if (hl && wsOnly c0) = true then rest0 else c0 :: rest0) = cs at hline
    obtain ⟨popped, hp1, hp2, hp3⟩ := greedyTake_spec width cs 0 []
    have hlen := greedyTake_len_le width cs 0 [] (Nat.zero_le width)
    rcases hg : greedyTake width 0 [] cs with ⟨cur, curLen, rem⟩
    rw [hg] at hp1 hp2 hp3 hlen hline
    simp only [List.nil_append] at hp1 hp2 hp3
    dsimp only at hline hlen
    have hcur : totalLen cur = curLen := by
      rw [hp1, hp3]
      omega
    have hp := wrapHandle_fst_totalLen_le width curLen cur hw hcur hlen rem
    have ht := wrapTrailing_totalLen_le (wrapHandle width curLen cur rem).1
    by_cases hnil : wrapTrailing (wrapHandle width curLen cur rem).1 = []
    · rw [if_pos hnil] at hline
      cases hline
    · rw [if_neg hnil] at hline
      have hleq : l = (wrapTrailing (wrapHandle width curLen cur rem).1).flatten :=
        (Option.some_inj.mp hline).symm
      rw [hleq, length_flatten_totalLen]
      omega

/-- Every line emitted by the outer loop fits the width (any fuel). -/
theorem wrapLoop_line_le (width : Nat) (hw : 1 ≤ width) :
    ∀ (fuel : Nat) (hl : Bool) (chunks : List (List Char)) (l : List Char),
      l ∈ wrapLoop width fuel hl chunks → l.length ≤ width := by
  intro fuel
  induction fuel with
  | zero => intro hl chunks l hm; simp [wrapLoop] at hm
  | succ f ih =>
    intro hl chunks l hm
    cases chunks with
    | nil => simp [wrapLoop] at hm
    | cons c rest =>
      rw [wrapLoop] at hm
      split at hm
      · rename_i l0 hs
        rcases List.mem_cons.mp hm with h | h
        · subst h
          exact wrapStep_line_le width hl (c :: rest) l hw hs
        · exact ih true _ l h
      · rename_i hs
        exact ih hl _ l hm

/-- With sufficient fuel the outer loop preserves the stripped content of
the queue. -/
theorem wrapLoop_content (width : Nat) :
    ∀ (fuel : Nat) (hl : Bool) (chunks : List (List Char)),
      muChunks chunks < fuel →
      stripWs (wrapLoop width fuel hl chunks).flatten = stripWs chunks.flatten := by
  intro fuel
  induction fuel with
  | zero => intro hl chunks h; omega
  | succ f ih =>
    intro hl chunks hfuel
    cases chunks with
    | nil => rfl
    | cons c rest =>
      rw [wrapLoop]
      have hmu := wrapStep_mu_lt width hl c rest
      have hcontent := wrapStep_content width hl (c :: rest)
      split
      · rename_i l0 hs
        rw [hs] at hcontent
        simp only [Option.getD_some] at hcontent
        rw [List.flatten_cons, stripWs_append, ih true _ (by omega),
          ← stripWs_append, hcontent]
      · rename_i hs
        rw [hs] at hcontent
        simp only [Option.getD_none, List.nil_append] at hcontent
        rw [ih hl _ (by omega), hcontent]

/-- Joining with single spaces has the same stripped content as plain
concatenation. -/
theorem stripWs_joinWithSpaces :
    ∀ chunks : List (List Char),
      stripWs (joinWithSpaces chunks) = stripWs chunks.flatten := by
  intro chunks
  induction chunks with
  | nil => rfl
  | cons l ls ih =>
    cases ls with
    | nil => simp [joinWithSpaces, List.flatten_cons]
    | cons l2 ls2 =>
      simp only [joinWithSpaces]
      rw [stripWs_append, stripWs_cons, if_pos (show isPyWs ' ' = true from rfl), ih,
        List.flatten_cons, stripWs_append]
      simp [List.flatten_cons, stripWs_append]

/-! ## Claim C6 -/

/-- Claim C6 confirmed: every chunk produced by `split_text_into_chunks`
(equivalently, every line of `textwrap.wrap`) has length at most the
maximum chunk size, including when the text contains a non-whitespace run
longer than the maximum (`break_long_words` cuts it).  A result is produced
exactly for a positive maximum, Python raising `ValueError` otherwise. -/
theorem C6_chunks_le_max (text : List Char) (M : Nat) (chunks : List (List Char))
    (hsplit : split_text_into_chunks text M = some chunks)
    (c : List Char) (hc : c ∈ chunks) : c.length ≤ M := by
  unfold split_text_into_chunks textwrapWrap at hsplit
  by_cases hM : M = 0
  · rw [if_pos hM] at hsplit
    cases hsplit
  · rw [if_neg hM] at hsplit
    have hinj := Option.some_inj.mp hsplit
    rw [← hinj] at hc
    unfold textwrapWrapChunks at hc
    exact wrapLoop_line_le M (Nat.one_le_iff_ne_zero.mpr hM) _ false _ c hc

/-- Witness for C6: a four-character run with maximum 3 is cut into a
3-character chunk and a 1-character chunk, each within the bound. -/
theorem C6_witness :
    split_text_into_chunks "aaaa".data 3 = some ["aaa".data, "a".data] ∧
    ("aaa".data).length ≤ 3 :=
  ⟨by decide,
   C6_chunks_le_max "aaaa".data 3 ["aaa".data, "a".data] (by decide) "aaa".data (by decide)⟩

/-! ## Claim C7 -/

/-- Claim C7 is false as stated: on the source `"a  b"` (with the default
maximum 5000) the chunker returns the single chunk `"a  b"`, whose
space-joined concatenation keeps the interior double space, whereas the
claim's normalization of the source collapses it — the two strings
differ. -/
theorem C7_counterexample :
    split_text_into_chunks "a  b".data 5000 = some ["a  b".data] ∧
    joinWithSpaces ["a  b".data] ≠ specNormalizeWs "a  b".data :=
  ⟨by decide, by decide⟩

/-- Claim C7, amended: joining the chunk sequence with single spaces
preserves the source text up to whitespace changes — the two sides are
equal after removing all whitespace; no non-whitespace content is
reordered, dropped or changed.  (Equality up to collapsing whitespace runs
of the source fails: interior runs inside a line are kept verbatim, and a
break inside an overlong word or after a hyphen inserts a space that was
not in the source.) -/
theorem C7_amended_content (text : List Char) (M : Nat) (chunks : List (List Char))
    (hsplit : split_text_into_chunks text M = some chunks) :
    stripWs (joinWithSpaces chunks) = stripWs text := by
  have hjoin := stripWs_joinWithSpaces chunks
  unfold split_text_into_chunks textwrapWrap at hsplit
  by_cases hM : M = 0
  · rw [if_pos hM] at hsplit
    cases hsplit
  · rw [if_neg hM] at hsplit
    have hinj := Option.some_inj.mp hsplit
    rw [hjoin, ← hinj]
    unfold textwrapWrapChunks
    rw [wrapLoop_content M _ false _ (by omega), textwrapSplit_flatten, stripWs_munge]

/-- Witness for C7: on `"hello world"` with maximum 5 the chunks are
`"hello"` and `"world"`, and their space-joined content matches the
source after stripping whitespace. -/
theorem C7_witness :
    split_text_into_chunks "hello world".data 5 = some ["hello".data, "world".data] ∧
    stripWs (joinWithSpaces ["hello".data, "world".data]) = stripWs "hello world".data :=
  ⟨by decide,
   C7_amended_content "hello world".data 5 ["hello".data, "world".data] (by decide)⟩

/-- A provider that cancels every chunk (e.g. a wrong API key). -/
def providerCancel : Provider :=
  fun _ _ _ => SynthOutcome.canceled true "invalid subscription key".data

/-- The claim's 3-chunk scenario at the loop level: when the provider
completes chunks 1 and 3 and cancels chunk 2, the collected audio read back
from the per-chunk artifacts is exactly chunk 1's and chunk 3's bytes in
order — the cancelled chunk is dropped without aborting. -/
theorem synthLoop_drop_on_cancel_three (provider : Provider)
    (voice c1 c2 c3 : List Char) (b1 b3 : List Nat) (e : Bool) (d : List Char) (fs : FS)
    (h1 : provider voice 1 c1 = .completed b1)
    (h2 : provider voice 2 c2 = .canceled e d)
    (h3 : provider voice 3 c3 = .completed b3) :
    ((synthLoop provider voice 0 [c1, c2, c3] fs).1).map
        (fun f => (readFS (synthLoop provider voice 0 [c1, c2, c3] fs).2 f).getD [])
      = [b1, b3] := by
  rw [synthLoop_reads]
  simp [successAudios, h1, h2, h3]

/-- Witness for C4: a single-chunk text under the chunk-2-cancelling
provider (chunk 1 completes with byte `1`); the output artifact holds
exactly that audio. -/
theorem C4_witness :
    readFS (text_to_speech_in_chunks providerDrop2 "hi".data "voice".data "Neural".data
        "output.mp3".data []) "output.mp3".data = some [1] :=
  (C4_output_is_concat_of_successes providerDrop2 "hi".data "voice".data "Neural".data
      "output.mp3".data [] ["hi".data] (by decide) (by decide) (by decide)).trans (by decide)

/-- Witness for C9: with every chunk cancelled (or with empty input text and
zero chunks) the prior content of `output.mp3` is preserved. -/
theorem C9_witness :
    readFS (text_to_speech_in_chunks providerCancel "hi there".data "voice".data
        "Standard".data "output.mp3".data [("output.mp3".data, [7])]) "output.mp3".data
      = some [7] ∧
    readFS (text_to_speech_in_chunks providerOK [] "voice".data
        "Standard".data "output.mp3".data [("output.mp3".data, [7])]) "output.mp3".data
      = some [7] :=
  ⟨(C9_no_output_when_no_success providerCancel "hi there".data "voice".data "Standard".data
      "output.mp3".data [("output.mp3".data, [7])] ["hi there".data] (by decide) (by decide)
      (by decide)).trans (by decide),
   (C9_no_output_when_no_success providerOK [] "voice".data "Standard".data
      "output.mp3".data [("output.mp3".data, [7])] [] (by decide) (by decide)
      (by decide)).trans (by decide)⟩
